import Mathlib

/-! Verification of the educo robot API servo / camera-relay core.

Shallow embedding of the Python sources under `robot_api/app/`:
* `servo/controller.py` — angle↔pulse conversion and smooth moves,
* `servo/pca9685.py`    — PCA9685 I2C backend (frequency / duty computation,
  setup ordering),
* `servo/soft_pwm.py`   — software PWM manager (width map, cycle algorithm),
* `main.py`             — camera stream relay (subscriber queues, MJPEG
  multipart frame reader).

Machine floats in the source only ever hold values whose computations are
exact (or whose rounding cannot cross a decision boundary for the integer
inputs involved), so the arithmetic is embedded over `ℚ` with explicit
Python-style truncation and rounding functions.
-/

set_option maxRecDepth 4000

namespace Educo

/-- Python `int(x)` applied to a float/rational: truncation toward zero. -/
def pytrunc (q : ℚ) : ℤ := if 0 ≤ q then ⌊q⌋ else ⌈q⌉

/-- Python `round(x)` for a rational: round half to even (banker's rounding). -/
def pyround (q : ℚ) : ℤ :=
  if q - ⌊q⌋ = 1/2 then (if ⌊q⌋ % 2 = 0 then ⌊q⌋ else ⌊q⌋ + 1)
  else ⌊q + 1/2⌋

namespace Controller

/-- The `[servo_move]` configuration fields used by `ServoController`
(`app/config.py`). -/
structure MoveCfg where
  min_pulse : ℤ
  max_pulse : ℤ
  angle_offset : ℤ
  smooth_steps : ℤ

/-- Embeds `AppConfig.pulse_range` property: `max_pulse - min_pulse`. -/
def MoveCfg.pulse_range (c : MoveCfg) : ℤ := c.max_pulse - c.min_pulse

/-- Shipped default `[servo_move]` values (`app/config.py`, `DEFAULT_CFG`
and the `load_config` fallbacks): `min_pulse = 50`, `max_pulse = 250`,
`angle_offset = 90`, `smooth_steps = 20`. -/
def defaultCfg : MoveCfg := ⟨50, 250, 90, 20⟩

/-- Embeds `ServoController.angle_to_pulse` (controller.py:49-51):
`raw = min_pulse + pulse_range * (angle + angle_offset) / 180.0`;
`return int(max(min_pulse, min(max_pulse, raw)))`. -/
def angle_to_pulse (c : MoveCfg) (angle : ℤ) : ℤ :=
  pytrunc (max (c.min_pulse : ℚ)
    (min (c.max_pulse : ℚ)
      ((c.min_pulse : ℚ) + (c.pulse_range : ℚ) * ((angle : ℚ) + (c.angle_offset : ℚ)) / 180)))

/-- The pulse→angle conversion used by `ServoController.status`
(controller.py:94):
`int(round((pulse - min_pulse) * 180 / pulse_range) - angle_offset)`. -/
def statusValue (c : MoveCfg) (pulse : ℤ) : ℤ :=
  pyround ((((pulse - c.min_pulse) * 180 : ℤ) : ℚ) / (c.pulse_range : ℚ)) - c.angle_offset

/-- Embeds `ServoController._clamp_angle` (controller.py:44-47), the clamped value. -/
def clampAngle (mn mx a : ℤ) : ℤ := max mn (min mx a)

/-- Round-trip pulse → status angle → pulse under the shipped default
configuration. -/
def roundTrip (p : ℤ) : ℤ := angle_to_pulse defaultCfg (statusValue defaultCfg p)

/-- The intermediate-write loop of `ServoController.move_servo_smooth`
(controller.py:72-76): `value` starts at the current pulse and is bumped by
`step` each iteration; each iteration issues `set_units(pin, int(round(value)))`. -/
def smoothLoop (value step : ℚ) : ℕ → List ℤ
  | 0 => []
  | n + 1 => pyround (value + step) :: smoothLoop (value + step) step n

/-- The full list of `set_units` values issued by
`ServoController.move_servo_smooth` for one move from `current` to `target`
(controller.py:69-77): `steps = max(1, smooth_steps)` intermediate writes of
the rounded running value, then a final write of exactly `target`. -/
def smoothWrites (c : MoveCfg) (current target : ℤ) : List ℤ :=
  let steps : ℕ := (max 1 c.smooth_steps).toNat
  let step : ℚ := ((target : ℚ) - (current : ℚ)) / (steps : ℚ)
  smoothLoop (current : ℚ) step steps ++ [target]

/-- Embeds `ServoController.move_servo_smooth` (controller.py:62-78) for a servo of
type `stype` with configured range `[mn, mx]`: `none` models the raised
`ValueError` for non-positional servos; on success the result is the list of
`set_units` pulse values issued for `pin` together with the updated
`current_state` map. The current pulse defaults to `angle_to_pulse 0` when
the pin has no tracked state. -/
def moveServoSmooth (c : MoveCfg) (stype : String) (mn mx : ℤ)
    (state : ℤ → Option ℤ) (pin a : ℤ) : Option (List ℤ × (ℤ → Option ℤ)) :=
  if stype ≠ "pos" then none
  else
    let a' := clampAngle mn mx a
    let target := angle_to_pulse c a'
    let current := (state pin).getD (angle_to_pulse c 0)
    some (smoothWrites c current target,
          fun p => if p = pin then some target else state p)

end Controller

namespace PCA9685

/-- Embeds `pca9685.py`: `PULSE_UNIT_US = 10` (10 µs per pulse unit). -/
def PULSE_UNIT_US : ℕ := 10

/-- Embeds `PCA9685Device.set_pwm_freq` (pca9685.py:51-63): frequencies outside
24–1526 Hz raise `ValueError` (`none`); otherwise the prescaler written to
the PRESCALE register is `int(math.floor(25_000_000/(4096*f) - 1 + 0.5))`. -/
def set_pwm_freq (f : ℤ) : Option ℤ :=
  if f < 24 ∨ 1526 < f then none
  else some ⌊(25000000 : ℚ) / (4096 * (f : ℚ)) - 1 + 1/2⌋

/-- Embeds `PCA9685Device.set_pwm` (pca9685.py:65-75): channel outside 0–15 raises
(`none`); otherwise the device write is `(channel, on & 0xFFF, off & 0xFFF)`
(for the non-negative values produced here, `& 0xFFF` is `% 4096`). -/
def set_pwm (channel onv offv : ℤ) : Option (ℤ × ℤ × ℤ) :=
  if channel < 0 ∨ 15 < channel then none
  else some (channel, onv % 4096, offv % 4096)

/-- The tick count computed by `PCA9685Device.set_pwm_us` (pca9685.py:80-81):
`ticks = int(round(pulse_us * 4096.0 * freq_hz / 1_000_000.0))` then
`ticks = max(0, min(4095, ticks))`. -/
def set_pwm_us_ticks (freq pulse_us : ℕ) : ℤ :=
  max 0 (min 4095 (Educo.pyround (((pulse_us * 4096 * freq : ℕ) : ℚ) / 1000000)))

/-- Embeds `PCA9685Device.set_pwm_us` (pca9685.py:77-82): the resulting
`set_pwm(channel, 0, ticks)` call. -/
def set_pwm_us (channel : ℤ) (freq pulse_us : ℕ) : Option (ℤ × ℤ × ℤ) :=
  set_pwm channel 0 (set_pwm_us_ticks freq pulse_us)

/-- Association-list lookup (Python `dict.get`; servo maps have unique keys). -/
def lookupA {α : Type} : List (ℤ × α) → ℤ → Option α
  | [], _ => none
  | (k, v) :: rest, p => if k = p then some v else lookupA rest p

/-- First loop of `PCA9685Backend.setup` (pca9685.py:94-102): resolve every
requested pin to its configured channel, raising (`none`) if a pin has no
servo definition or its definition carries no channel. The servo map entry
for a pin is `some ch` when `channelN` is configured and `none` otherwise. -/
def resolveChannels (smap : List (ℤ × Option ℤ)) : List ℤ → Option (List (ℤ × ℤ))
  | [] => some []
  | pin :: rest =>
    match lookupA smap pin with
    | none => none
    | some none => none
    | some (some ch) => (resolveChannels smap rest).map (fun l => (pin, ch) :: l)

/-- Embeds `PCA9685Backend.setup` (pca9685.py:92-106): first resolve all channels
(loop 1), then issue one `set_pwm_us(channel, centre_us)` duty write per pin
(loop 2) with `centre_us = max(0, centre_units) * PULSE_UNIT_US`. The result
is the list of duty writes `(channel, pulse_us)` actually issued, paired with
`true` on success and `false` when setup raised. Device construction (mode /
prescale register writes) precedes loop 1 but performs no duty write. -/
def setup (smap : List (ℤ × Option ℤ)) (pins : List ℤ) (centre_units : ℤ) :
    List (ℤ × ℤ) × Bool :=
  match resolveChannels smap pins with
  | none => ([], false)
  | some chans =>
    (chans.map (fun e => (e.2, (max 0 centre_units) * (PULSE_UNIT_US : ℤ))), true)

end PCA9685

namespace SoftPWM

/-- Embeds `soft_pwm.py`: `PULSE_UNIT_US = 10`. -/
def PULSE_UNIT_US : ℕ := 10

/-- Update of the `_width_us` dict: replace the entry for `pin` or append it. -/
def setWidth : List (ℤ × ℕ) → ℤ → ℕ → List (ℤ × ℕ)
  | [], p, w => [(p, w)]
  | (q, v) :: rest, p, w => if q = p then (p, w) :: rest else (q, v) :: setWidth rest p w

/-- Embeds `SoftPWMManager.set_units` (soft_pwm.py:198-202) and, identically for the
width map, `register_pin` (soft_pwm.py:192-196): store
`_width_us[pin] = max(0, units) * PULSE_UNIT_US`. -/
def set_units (s : List (ℤ × ℕ)) (pin units : ℤ) : List (ℤ × ℕ) :=
  setWidth s pin ((max 0 units).toNat * PULSE_UNIT_US)

/-- A sequence of `register_pin` / `set_units` calls applied to a width map. -/
def applyCalls (s : List (ℤ × ℕ)) (calls : List (ℤ × ℤ)) : List (ℤ × ℕ) :=
  calls.foldl (fun acc c => set_units acc c.1 c.2) s

/-- Ascending insertion (used to embed Python `sorted`). -/
def insertAsc (x : ℕ) : List ℕ → List ℕ
  | [] => [x]
  | y :: ys => if x ≤ y then x :: y :: ys else y :: insertAsc x ys

/-- Python `sorted` on a list of naturals (ascending). -/
def sortAsc (l : List ℕ) : List ℕ := l.foldr insertAsc []

/-- The pins set active at the start of one `_loop` iteration
(soft_pwm.py:233-238): every pin of `items` whose width is `> 0`, in
iteration order. -/
def cycleHighs (items : List (ℤ × ℕ)) : List ℤ :=
  (items.filter (fun e => 0 < e.2)).map (fun e => e.1)

/-- Embeds `offs = sorted(w for _, w in items if w > 0)` (soft_pwm.py:240): the
deactivation offsets walked by the off-event loop, ascending, with one entry
per matching item (duplicates preserved). -/
def offsWalked (items : List (ℤ × ℕ)) : List ℕ :=
  sortAsc ((items.filter (fun e => 0 < e.2)).map (fun e => e.2))

/-- The pins whose width equals a given offset — the pins set low when the
off-event loop reaches `off_us` (soft_pwm.py:253-258). -/
def lowsAt (items : List (ℤ × ℕ)) (o : ℕ) : List ℤ :=
  (items.filter (fun e => e.2 = o)).map (fun e => e.1)

/-- The off-event walk (soft_pwm.py:242-259): for each offset in `offs`, the
inner loop sets low exactly the pins whose width equals that offset. -/
def walkOffsets (items : List (ℤ × ℕ)) : List ℕ → List (ℕ × List ℤ)
  | [] => []
  | o :: rest => (o, lowsAt items o) :: walkOffsets items rest

/-- One full iteration of `SoftPWMManager._loop` (soft_pwm.py:226-259),
reduced to its pin transitions: the list of scheduled deactivation events. -/
def cycleEvents (items : List (ℤ × ℕ)) : List (ℕ × List ℤ) :=
  walkOffsets items (offsWalked items)

/-- The spec's words for the offsets walked: "the distinct set of positive
widths, sorted ascending" (spec §4.2). Kept separate from `offsWalked`,
which embeds the source. -/
def distinctSortedWidths (items : List (ℤ × ℕ)) : List ℕ :=
  sortAsc (((items.filter (fun e => 0 < e.2)).map (fun e => e.2)).dedup)

end SoftPWM

namespace Relay

/-- Embeds `queue.Queue.put_nowait` on a bounded FIFO modelled as a list (front =
oldest): fails (`none`, raising `queue.Full`) iff the queue already holds
`cap` items. -/
def putNowait (cap : ℕ) (q : List ℕ) (p : ℕ) : Option (List ℕ) :=
  if cap ≤ q.length then none else some (q ++ [p])

/-- Embeds `queue.Queue.get_nowait`: pops the oldest item, failing on empty. -/
def getNowait (q : List ℕ) : Option (ℕ × List ℕ) :=
  match q with
  | [] => none
  | x :: xs => some (x, xs)

/-- The per-subscriber delivery step of `CameraStreamRelay._broadcast`
(main.py:311-321) for a non-`None` payload and the capacity-4 queue created
in `add_client` (main.py:93): try `put_nowait`; on `queue.Full`, drop the
oldest buffered frame with `get_nowait`, then `put_nowait` again (a second
`Full`, impossible here with one producer, would drop the new frame). Every
branch returns without blocking. -/
def broadcastPush (q : List ℕ) (p : ℕ) : List ℕ :=
  match putNowait 4 q p with
  | some q' => q'
  | none =>
    let q1 := match getNowait q with
      | some pr => pr.2
      | none => q
    match putNowait 4 q1 p with
    | some q' => q'
    | none => q1

/-- Broadcasting a sequence of frames to one subscriber queue. -/
def broadcastAll (q : List ℕ) (ps : List ℕ) : List ℕ :=
  ps.foldl broadcastPush q

end Relay

namespace Mjpeg

/-- Bytes stripped by Python `bytes.strip()` / ASCII `str.strip()`:
space, tab, newline, vertical tab, form feed, carriage return. -/
def isSpaceByte (b : ℕ) : Bool := b = 32 ∨ b = 9 ∨ b = 10 ∨ b = 11 ∨ b = 12 ∨ b = 13

/-- Python `.strip()` on a byte string. -/
def stripBytes (l : List ℕ) : List ℕ :=
  ((l.dropWhile isSpaceByte).reverse.dropWhile isSpaceByte).reverse

/-- ASCII `.lower()` on one byte (header keys compared against
`"content-length"` are ASCII). -/
def lowerByte (b : ℕ) : ℕ := if 65 ≤ b ∧ b ≤ 90 then b + 32 else b

/-- Embeds `reader.readline()` on a byte stream: the line up to and including the
first `\n`, or the whole remainder at EOF; returns the line and the rest. -/
def readline : List ℕ → List ℕ × List ℕ
  | [] => ([], [])
  | b :: rest =>
    if b = 10 then ([10], rest)
    else
      let pr := readline rest
      (b :: pr.1, pr.2)

/-- Python `line.split(":", 1)`: `none` when the line has no colon
(the header loop then `continue`s), otherwise the parts before and after the
first `:` (byte 58). -/
def splitColon : List ℕ → Option (List ℕ × List ℕ)
  | [] => none
  | b :: rest =>
    if b = 58 then some ([], rest)
    else (splitColon rest).map (fun pr => (b :: pr.1, pr.2))

/-- The digit/underscore tail of Python `int(str)` parsing: digits, with
single underscores allowed only between digits. `acc` is the value read so
far; the previous character was a digit. -/
def digitsAux (acc : ℕ) : List ℕ → Option ℕ
  | [] => some acc
  | b :: rest =>
    if 48 ≤ b ∧ b ≤ 57 then digitsAux (acc * 10 + (b - 48)) rest
    else if b = 95 then
      match rest with
      | c :: rest2 =>
        if 48 ≤ c ∧ c ≤ 57 then digitsAux (acc * 10 + (c - 48)) rest2 else none
      | [] => none
    else none

/-- Unsigned part of Python `int(str)`: at least one leading digit. -/
def parseUnsigned : List ℕ → Option ℕ
  | [] => none
  | b :: rest => if 48 ≤ b ∧ b ≤ 57 then digitsAux (b - 48) rest else none

/-- Python `int(value)` on a stripped-decodable string: strip whitespace,
optional sign (`+` 43 / `-` 45), then a digit sequence; anything else raises
`ValueError` (`none`). -/
def pyParseInt (v : List ℕ) : Option ℤ :=
  match stripBytes v with
  | 43 :: rest => (parseUnsigned rest).map (fun n => (n : ℤ))
  | 45 :: rest => (parseUnsigned rest).map (fun n => -(n : ℤ))
  | rest => (parseUnsigned rest).map (fun n => (n : ℤ))

/-- The bytes of `"content-length"`, the lowercased header key looked up by
`_read_mjpeg_frame` (main.py:178). -/
def contentLengthKey : List ℕ := "content-length".data.map Char.toNat

/-- Embeds `dict.get` over headers collected in file order: the last occurrence of
a key wins, as in the Python dict the loop fills. -/
def getHeader (hs : List (List ℕ × List ℕ)) (k : List ℕ) : Option (List ℕ) :=
  (hs.reverse.find? (fun e => e.1 == k)).map (fun e => e.2)

/-- The boundary-scanning loop of `CameraStreamRelay._read_mjpeg_frame`
(main.py:156-163), fuelled for structural recursion (`readline` consumes at
least one byte, so `s.length + 1` fuel always suffices): EOF returns `none`;
blank lines are skipped; the loop exits past the first line starting with the
boundary. -/
def skipToBoundaryF (boundary : List ℕ) : ℕ → List ℕ → Option (List ℕ)
  | 0, _ => none
  | fuel + 1, s =>
    let pr := readline s
    if pr.1 = [] then none
    else if stripBytes pr.1 = [] then skipToBoundaryF boundary fuel pr.2
    else if boundary.isPrefixOf pr.1 then some pr.2
    else skipToBoundaryF boundary fuel pr.2

def skipToBoundary (s boundary : List ℕ) : Option (List ℕ) :=
  skipToBoundaryF boundary (s.length + 1) s

/-- The header-collection loop of `_read_mjpeg_frame` (main.py:165-176),
fuelled likewise: EOF mid-headers returns `none`; a bare `\r\n` or `\n` ends
the headers; lines without a colon are skipped; otherwise the key is
stripped and lowercased, the value stripped. -/
def parseHeadersF : ℕ → List ℕ → Option (List (List ℕ × List ℕ) × List ℕ)
  | 0, _ => none
  | fuel + 1, s =>
    let pr := readline s
    if pr.1 = [] then none
    else if pr.1 = [13, 10] ∨ pr.1 = [10] then some ([], pr.2)
    else
      match splitColon pr.1 with
      | none => parseHeadersF fuel pr.2
      | some kv =>
        (parseHeadersF fuel pr.2).map
          (fun hr => (((stripBytes kv.1).map lowerByte, stripBytes kv.2) :: hr.1, hr.2))

def parseHeaders (s : List ℕ) : Option (List (List ℕ × List ℕ) × List ℕ) :=
  parseHeadersF (s.length + 1) s

/-- Embeds `CameraStreamRelay._read_mjpeg_frame` (main.py:154-198): skip to the
boundary, collect headers, look up `content-length` (absent or empty ⇒
`None`), parse it (`ValueError` ⇒ `None`), read exactly that many body bytes
(EOF short ⇒ `None`; a non-positive length skips the body loop), discard one
trailing line, and return the frame bytes. -/
def readMjpegFrame (s boundary : List ℕ) : Option (List ℕ) :=
  match skipToBoundary s boundary with
  | none => none
  | some s1 =>
    match parseHeaders s1 with
    | none => none
    | some hr =>
      match getHeader hr.1 contentLengthKey with
      | none => none
      | some v =>
        if v = [] then none
        else
          match pyParseInt v with
          | none => none
          | some n =>
            if n ≤ 0 then some []
            else if hr.2.length < n.toNat then none
            else some (hr.2.take n.toNat)

end Mjpeg

/-! ### Helper lemmas -/

theorem pytrunc_mono {q r : ℚ} (h : q ≤ r) : pytrunc q ≤ pytrunc r := by
  unfold pytrunc
  split_ifs with h1 h2 h2
  · exact Int.floor_mono h
  · exact absurd (le_trans h1 h) h2
  · exact le_trans (Int.ceil_le.mpr (by exact_mod_cast le_of_not_le h1))
      (Int.le_floor.mpr (by exact_mod_cast h2))
  · exact Int.ceil_mono h

theorem int_le_pytrunc {z : ℤ} {q : ℚ} (h : (z : ℚ) ≤ q) : z ≤ pytrunc q := by
  unfold pytrunc
  split_ifs with h1
  · exact Int.le_floor.mpr h
  · exact_mod_cast le_trans h (Int.le_ceil q)

theorem pytrunc_le_int {z : ℤ} {q : ℚ} (h : q ≤ (z : ℚ)) : pytrunc q ≤ z := by
  unfold pytrunc
  split_ifs with h1
  · exact_mod_cast le_trans (Int.floor_le q) h
  · exact Int.ceil_le.mpr h

theorem smoothLoop_length (s : ℚ) : ∀ (n : ℕ) (v : ℚ), (Controller.smoothLoop v s n).length = n := by
  intro n
  induction n with
  | zero => intro v; rfl
  | succ m ih => intro v; simpa [Controller.smoothLoop] using ih (v + s)

theorem pyround_bounds (q : ℚ) :
    q - 1/2 ≤ (pyround q : ℚ) ∧ (pyround q : ℚ) ≤ q + 1/2 := by
  unfold pyround
  split_ifs with h1 h2
  · constructor <;> linarith
  · push_cast
    constructor <;> linarith
  · have hl := Int.floor_le (q + 1/2)
    have hu := Int.lt_floor_add_one (q + 1/2)
    constructor <;> linarith

/-- Embeds `pyround` (round half to even) agrees with `round` (round half up) when
the argument `n / 1000000` can never be a half-integer, which holds whenever
`64 ∣ n` because `64 ∣ 10^6` while `64 ∤ 500000`. -/
theorem pyround_eq_round_of_dvd (n : ℕ) (hdvd : 64 ∣ n) :
    pyround ((n : ℚ) / 1000000) = round ((n : ℚ) / 1000000) := by
  set q : ℚ := (n : ℚ) / 1000000 with hq
  have hnotie : ¬(q - ⌊q⌋ = 1/2) := by
    intro h
    have hval : (n : ℚ) = 1000000 * (⌊q⌋ : ℚ) + 500000 := by
      have hq2 : q = (⌊q⌋ : ℚ) + 1/2 := by linarith
      have hmul : (n : ℚ) = q * 1000000 := by
        rw [hq]
        field_simp
      rw [hq2] at hmul
      linarith
    have hint : (n : ℤ) = 1000000 * ⌊q⌋ + 500000 := by exact_mod_cast hval
    obtain ⟨k, hk⟩ := hdvd
    subst hk
    push_cast at hint
    omega
  rw [round_eq]
  unfold pyround
  rw [if_neg hnotie]

theorem mem_setWidth {e : ℤ × ℕ} {s : List (ℤ × ℕ)} {p : ℤ} {w : ℕ}
    (h : e ∈ SoftPWM.setWidth s p w) : e.2 = w ∨ e ∈ s := by
  induction s with
  | nil =>
    simp [SoftPWM.setWidth] at h
    simp [h]
  | cons hd tl ih =>
    obtain ⟨q, v⟩ := hd
    rw [SoftPWM.setWidth] at h
    split_ifs at h with hq
    · rcases List.mem_cons.mp h with h1 | h1
      · simp [h1]
      · exact Or.inr (List.mem_cons_of_mem _ h1)
    · rcases List.mem_cons.mp h with h1 | h1
      · exact Or.inr (by simp [h1])
      · rcases ih h1 with h2 | h2
        · exact Or.inl h2
        · exact Or.inr (List.mem_cons_of_mem _ h2)

theorem set_units_width_le {period : ℕ} {s : List (ℤ × ℕ)} {pin units : ℤ}
    (h0 : ∀ e ∈ s, e.2 ≤ period) (hu : units * 10 ≤ (period : ℤ)) :
    ∀ e ∈ SoftPWM.set_units s pin units, e.2 ≤ period := by
  intro e he
  rcases mem_setWidth he with h1 | h1
  · rw [h1]
    rcases le_total units 0 with hneg | hpos
    · rw [max_eq_left hneg]
      simp [SoftPWM.PULSE_UNIT_US]
    · rw [max_eq_right hpos]
      simp only [SoftPWM.PULSE_UNIT_US]
      omega
  · exact h0 e h1

theorem applyCalls_width_le {period : ℕ} {calls : List (ℤ × ℤ)} :
    ∀ {s : List (ℤ × ℕ)}, (∀ e ∈ s, e.2 ≤ period) →
    (∀ c ∈ calls, c.2 * 10 ≤ (period : ℤ)) →
    ∀ e ∈ SoftPWM.applyCalls s calls, e.2 ≤ period := by
  induction calls with
  | nil => intro s h0 _ e he; exact h0 e he
  | cons c cs ih =>
    intro s h0 hc e he
    rw [SoftPWM.applyCalls] at he
    simp only [List.foldl_cons] at he
    exact ih (set_units_width_le h0 (hc c (List.mem_cons_self c cs)))
      (fun d hd => hc d (List.mem_cons_of_mem c hd)) e he

theorem mem_insertAsc {a x : ℕ} {l : List ℕ} :
    a ∈ SoftPWM.insertAsc x l ↔ a = x ∨ a ∈ l := by
  induction l with
  | nil => simp [SoftPWM.insertAsc]
  | cons y ys ih =>
    rw [SoftPWM.insertAsc]
    split_ifs with hxy
    · simp [or_comm, or_left_comm]
    · simp only [List.mem_cons, ih]
      tauto

theorem mem_sortAsc {a : ℕ} {l : List ℕ} : a ∈ SoftPWM.sortAsc l ↔ a ∈ l := by
  induction l with
  | nil => simp [SoftPWM.sortAsc]
  | cons x xs ih =>
    show a ∈ SoftPWM.insertAsc x (SoftPWM.sortAsc xs) ↔ _
    rw [mem_insertAsc, ih]
    simp

theorem insertAsc_perm (x : ℕ) (l : List ℕ) :
    (SoftPWM.insertAsc x l).Perm (x :: l) := by
  induction l with
  | nil => simp [SoftPWM.insertAsc]
  | cons y ys ih =>
    rw [SoftPWM.insertAsc]
    split_ifs with hxy
    · exact List.Perm.refl _
    · exact (ih.cons y).trans (List.Perm.swap x y ys)

theorem sortAsc_perm (l : List ℕ) : (SoftPWM.sortAsc l).Perm l := by
  induction l with
  | nil => exact List.Perm.refl _
  | cons x xs ih =>
    exact (insertAsc_perm x (SoftPWM.sortAsc xs)).trans (ih.cons x)

theorem pairwise_insertAsc {x : ℕ} {l : List ℕ}
    (h : l.Pairwise (· ≤ ·)) : (SoftPWM.insertAsc x l).Pairwise (· ≤ ·) := by
  induction l with
  | nil => simp [SoftPWM.insertAsc]
  | cons y ys ih =>
    rw [List.pairwise_cons] at h
    obtain ⟨hy, hys⟩ := h
    rw [SoftPWM.insertAsc]
    split_ifs with hxy
    · rw [List.pairwise_cons]
      refine ⟨?_, List.pairwise_cons.mpr ⟨hy, hys⟩⟩
      intro b hb
      rcases List.mem_cons.mp hb with hb1 | hb1
      · rw [hb1]; exact hxy
      · exact le_trans hxy (hy b hb1)
    · rw [List.pairwise_cons]
      refine ⟨?_, ih hys⟩
      intro b hb
      rcases mem_insertAsc.mp hb with hb1 | hb1
      · rw [hb1]; exact le_of_not_le hxy
      · exact hy b hb1

theorem sortAsc_pairwise (l : List ℕ) :
    (SoftPWM.sortAsc l).Pairwise (· ≤ ·) := by
  induction l with
  | nil => simp [SoftPWM.sortAsc]
  | cons x xs ih => exact pairwise_insertAsc ih

theorem keys_nodup_eq {l : List (ℤ × ℕ)} (hnodup : (l.map Prod.fst).Nodup)
    {p : ℤ} {a b : ℕ} (ha : (p, a) ∈ l) (hb : (p, b) ∈ l) : a = b := by
  induction l with
  | nil => simp at ha
  | cons hd tl ih =>
    rw [List.map_cons, List.nodup_cons] at hnodup
    obtain ⟨hhd, htl⟩ := hnodup
    rcases List.mem_cons.mp ha with ha1 | ha1 <;> rcases List.mem_cons.mp hb with hb1 | hb1
    · rw [← ha1] at hb1
      exact (Prod.mk.injEq _ _ _ _ ▸ hb1.symm).2
    · exact absurd (List.mem_map.mpr ⟨(p, b), hb1, by rw [← ha1]⟩) hhd
    · exact absurd (List.mem_map.mpr ⟨(p, a), ha1, by rw [← hb1]⟩) hhd
    · exact ih htl ha1 hb1

/-! ### Claim theorems -/

/-- C1. For every positional servo pin and every target angle,
`move_servo_smooth` issues exactly `steps = max(1, smooth_steps)` intermediate
`set_units` writes followed by one final `set_units` write whose value is
exactly `angle_to_pulse` of the clamped target angle, and the tracked current
pulse for that pin afterwards equals that final value. -/
theorem C1_move_smooth_writes (c : Controller.MoveCfg) (mn mx : ℤ)
    (st : ℤ → Option ℤ) (pin a : ℤ) :
    ∃ writes newState,
      Controller.moveServoSmooth c "pos" mn mx st pin a = some (writes, newState) ∧
      ∃ mid, writes = mid ++ [Controller.angle_to_pulse c (Controller.clampAngle mn mx a)] ∧
        mid.length = (max 1 c.smooth_steps).toNat ∧
        newState pin = some (Controller.angle_to_pulse c (Controller.clampAngle mn mx a)) := by
  refine ⟨Controller.smoothWrites c ((st pin).getD (Controller.angle_to_pulse c 0))
      (Controller.angle_to_pulse c (Controller.clampAngle mn mx a)),
    fun p => if p = pin then
        some (Controller.angle_to_pulse c (Controller.clampAngle mn mx a))
      else st p, ?_, ?_⟩
  · simp [Controller.moveServoSmooth]
  · refine ⟨_, rfl, smoothLoop_length _ _ _, by simp⟩

/-- C4. Assuming `max_pulse ≥ min_pulse`, `angle_to_pulse` is monotone
non-decreasing in the angle and for every integer angle its result lies in
`[min_pulse, max_pulse]`. -/
theorem C4_angle_to_pulse_monotone_bounded (c : Controller.MoveCfg)
    (h : c.min_pulse ≤ c.max_pulse) :
    (∀ a b : ℤ, a ≤ b →
        Controller.angle_to_pulse c a ≤ Controller.angle_to_pulse c b) ∧
    (∀ a : ℤ, c.min_pulse ≤ Controller.angle_to_pulse c a ∧
        Controller.angle_to_pulse c a ≤ c.max_pulse) := by
  have hR : (0 : ℚ) ≤ (c.pulse_range : ℚ) := by
    have : (0 : ℤ) ≤ c.pulse_range := by
      simp only [Controller.MoveCfg.pulse_range]
      omega
    exact_mod_cast this
  constructor
  · intro a b hab
    apply pytrunc_mono
    apply max_le_max le_rfl
    apply min_le_min le_rfl
    apply add_le_add_left
    apply (div_le_div_iff_of_pos_right (by norm_num : (0 : ℚ) < 180)).mpr
    apply mul_le_mul_of_nonneg_left _ hR
    have : (a : ℚ) ≤ (b : ℚ) := by exact_mod_cast hab
    linarith
  · intro a
    constructor
    · exact int_le_pytrunc (le_max_left _ _)
    · exact pytrunc_le_int (max_le (by exact_mod_cast h) (min_le_left _ _))

/-- C2. Under the shipped default configuration, converting any in-range
pulse to the status-report angle and back through `angle_to_pulse` recovers a
pulse within 1 tick of the original. -/
theorem C2_round_trip_default (p : ℤ) (h1 : 50 ≤ p) (h2 : p ≤ 250) :
    (Controller.roundTrip p - p).natAbs ≤ 1 := by
  have hp1 : (50 : ℚ) ≤ (p : ℚ) := by exact_mod_cast h1
  have hp2 : (p : ℚ) ≤ 250 := by exact_mod_cast h2
  have hE : Controller.roundTrip p =
      pytrunc (max ((Controller.defaultCfg.min_pulse : ℤ) : ℚ)
        (min ((Controller.defaultCfg.max_pulse : ℤ) : ℚ)
          (((Controller.defaultCfg.min_pulse : ℤ) : ℚ) +
            ((Controller.defaultCfg.pulse_range : ℤ) : ℚ) *
              (((Controller.statusValue Controller.defaultCfg p : ℤ) : ℚ) +
                ((Controller.defaultCfg.angle_offset : ℤ) : ℚ)) / 180))) := rfl
  set A : ℚ := (((p - Controller.defaultCfg.min_pulse) * 180 : ℤ) : ℚ) /
      ((Controller.defaultCfg.pulse_range : ℤ) : ℚ) with hAdef
  have hA : A = ((p : ℚ) - 50) * 180 / 200 := by
    rw [hAdef]
    simp only [Controller.defaultCfg, Controller.MoveCfg.pulse_range]
    push_cast
    norm_num
  have hsv : ((Controller.statusValue Controller.defaultCfg p : ℤ) : ℚ)
      = (pyround A : ℚ) - 90 := by
    simp only [Controller.statusValue, hAdef]
    push_cast
    norm_num [Controller.defaultCfg]
  have hm : ((Controller.defaultCfg.min_pulse : ℤ) : ℚ) = 50 := by
    norm_num [Controller.defaultCfg]
  have hM : ((Controller.defaultCfg.max_pulse : ℤ) : ℚ) = 250 := by
    norm_num [Controller.defaultCfg]
  have hR : ((Controller.defaultCfg.pulse_range : ℤ) : ℚ) = 200 := by
    norm_num [Controller.defaultCfg, Controller.MoveCfg.pulse_range]
  have hoff : ((Controller.defaultCfg.angle_offset : ℤ) : ℚ) = 90 := by
    norm_num [Controller.defaultCfg]
  rw [hE, hsv, hm, hM, hR, hoff]
  obtain ⟨hrl, hru⟩ := pyround_bounds A
  have hub : (50 : ℚ) + 200 * (((pyround A : ℚ) - 90) + 90) / 180 ≤ (p : ℚ) + 5/9 := by
    linarith [hA, hru]
  have hlb : (p : ℚ) - 5/9 ≤ (50 : ℚ) + 200 * (((pyround A : ℚ) - 90) + 90) / 180 := by
    linarith [hA, hrl]
  set B : ℚ := max (50 : ℚ)
    (min 250 ((50 : ℚ) + 200 * (((pyround A : ℚ) - 90) + 90) / 180)) with hBdef
  have hqub : B ≤ (p : ℚ) + 5/9 := by
    rw [hBdef]
    exact max_le (by linarith) (le_trans (min_le_right _ _) hub)
  have hqlb : (p : ℚ) - 5/9 ≤ B := by
    rw [hBdef]
    exact le_trans (le_min (by linarith) hlb) (le_max_right _ _)
  have h50q : (50 : ℚ) ≤ B := by
    rw [hBdef]
    exact le_max_left _ _
  have hpt : pytrunc B = ⌊B⌋ := by
    rw [pytrunc, if_pos (by linarith : (0 : ℚ) ≤ B)]
  rw [hpt]
  have hfl : p - 1 ≤ ⌊B⌋ := Int.le_floor.mpr (by push_cast; linarith)
  have hfu : ⌊B⌋ ≤ p := by
    have hfle := Int.floor_le B
    have hlt : (⌊B⌋ : ℚ) < (p : ℚ) + 1 := by linarith
    exact_mod_cast Int.lt_add_one_iff.mp (by exact_mod_cast hlt)
  omega

/-- Witness for C2 at pulse 55 (where the round-trip error is exactly 1). -/
theorem C2_witness :
    (50 : ℤ) ≤ 55 ∧ (55 : ℤ) ≤ 250 ∧ (Controller.roundTrip 55 - 55).natAbs ≤ 1 :=
  ⟨by decide, by decide, C2_round_trip_default 55 (by decide) (by decide)⟩

/-- C5. `set_pwm_freq` accepts exactly the frequencies in 24–1526 Hz
inclusive (24 and 1526 accepted, 23 and 1527 rejected) and writes
`prescaler = round(25000000 / (4096 × freq_hz) − 1)` for every accepted
frequency; 50 Hz yields prescaler 121. (`int(math.floor(x + 0.5))` in the
source is exactly `round` = `⌊x + 1/2⌋`.) -/
theorem C5_set_pwm_freq :
    (∀ f : ℤ, PCA9685.set_pwm_freq f =
      if 24 ≤ f ∧ f ≤ 1526 then
        some (round ((25000000 : ℚ) / (4096 * (f : ℚ)) - 1))
      else none) ∧
    PCA9685.set_pwm_freq 50 = some 121 ∧
    (PCA9685.set_pwm_freq 24).isSome = true ∧
    (PCA9685.set_pwm_freq 1526).isSome = true ∧
    PCA9685.set_pwm_freq 23 = none ∧
    PCA9685.set_pwm_freq 1527 = none := by
  have key : ∀ f : ℤ, PCA9685.set_pwm_freq f =
      if 24 ≤ f ∧ f ≤ 1526 then
        some (round ((25000000 : ℚ) / (4096 * (f : ℚ)) - 1))
      else none := by
    intro f
    rw [PCA9685.set_pwm_freq, round_eq]
    by_cases h : 24 ≤ f ∧ f ≤ 1526
    · rw [if_neg (by omega), if_pos h]
    · rw [if_pos (by omega), if_neg h]
  refine ⟨key, ?_, ?_, ?_, ?_, ?_⟩
  · rw [key]
    rw [if_pos (by omega)]
    have hval : (25000000 : ℚ) / (4096 * ((50 : ℤ) : ℚ)) - 1 + 1/2 = 15561/128 := by
      push_cast
      norm_num
    rw [round_eq, hval]
    have hfl : ⌊(15561/128 : ℚ)⌋ = 121 := Int.floor_eq_iff.mpr (by norm_num)
    rw [hfl]
  · rw [key, if_pos (by omega)]
    rfl
  · rw [key, if_pos (by omega)]
    rfl
  · rw [key, if_neg (by omega)]
  · rw [key, if_neg (by omega)]

/-- C6. For every channel and non-negative `pulse_us`, `set_pwm_us`
computes `ticks = round(pulse_us × 4096 × freq_hz / 1000000)` clamped to
`[0, 4095]` and calls `set_pwm(channel, 0, ticks)`; at 50 Hz,
`pulse_us = 1500` gives 307 ticks. (The Python banker's rounding agrees with
`round` because the argument is never a half-integer.) -/
theorem C6_set_pwm_us :
    (∀ freq pulse_us : ℕ, PCA9685.set_pwm_us_ticks freq pulse_us =
      max 0 (min 4095 (round (((pulse_us * 4096 * freq : ℕ) : ℚ) / 1000000)))) ∧
    (∀ (channel : ℤ) (freq pulse_us : ℕ),
      PCA9685.set_pwm_us channel freq pulse_us =
        PCA9685.set_pwm channel 0
          (max 0 (min 4095 (round (((pulse_us * 4096 * freq : ℕ) : ℚ) / 1000000))))) ∧
    PCA9685.set_pwm_us_ticks 50 1500 = 307 ∧
    PCA9685.set_pwm_us 3 50 1500 = some (3, 0, 307) := by
  have key : ∀ freq pulse_us : ℕ, PCA9685.set_pwm_us_ticks freq pulse_us =
      max 0 (min 4095 (round (((pulse_us * 4096 * freq : ℕ) : ℚ) / 1000000))) := by
    intro freq pulse_us
    rw [PCA9685.set_pwm_us_ticks,
      pyround_eq_round_of_dvd _ ⟨pulse_us * 64 * freq, by ring⟩]
  have h307 : PCA9685.set_pwm_us_ticks 50 1500 = 307 := by
    rw [key]
    have hval : (((1500 * 4096 * 50 : ℕ) : ℚ) / 1000000) = 1536/5 := by norm_num
    rw [hval, round_eq]
    have hhalf : ((1536 : ℚ)/5 + 1/2) = 3077/10 := by norm_num
    rw [hhalf]
    have hfl : ⌊(3077/10 : ℚ)⌋ = 307 := Int.floor_eq_iff.mpr (by norm_num)
    rw [hfl]
    norm_num [max_def, min_def]
  refine ⟨key, ?_, h307, ?_⟩
  · intro channel freq pulse_us
    rw [PCA9685.set_pwm_us, key]
  · rw [PCA9685.set_pwm_us, h307, PCA9685.set_pwm, if_neg (by omega)]
    norm_num

/-- C3, counterexample. The claim "every pin's stored active-high width
is at most the configured period after any sequence of `register_pin` /
`set_units` calls (for arbitrary non-negative units)" is false: with the
configured period 20000 µs (`[soft] period_us`), a single
`set_units(31, 2001)` with the non-negative argument 2001 stores width
20010 µs > 20000 µs — the source clamps `units` to ≥ 0 but never to the
period. -/
theorem C3_counterexample :
    SoftPWM.set_units [] 31 2001 = [(31, 20010)] ∧ ¬((20010 : ℕ) ≤ 20000) := by
  constructor
  · rfl
  · decide

/-- C3, amended. Widths are never clamped to the period; the invariant
holds exactly when every call writes `units ≤ period / 10` (as the servo
controller guarantees via `max_pulse`): starting from any width map within
the period, after any such call sequence every stored width is at most the
period, and hence no deactivation offset walked by the cycle loop exceeds
the period. -/
theorem C3_amended (period : ℕ) (s0 : List (ℤ × ℕ)) (calls : List (ℤ × ℤ))
    (h0 : ∀ e ∈ s0, e.2 ≤ period)
    (hc : ∀ c ∈ calls, c.2 * 10 ≤ (period : ℤ)) :
    (∀ e ∈ SoftPWM.applyCalls s0 calls, e.2 ≤ period) ∧
    (∀ o ∈ SoftPWM.offsWalked (SoftPWM.applyCalls s0 calls), o ≤ period) := by
  have hw := applyCalls_width_le h0 hc
  refine ⟨hw, ?_⟩
  intro o ho
  rw [SoftPWM.offsWalked, mem_sortAsc] at ho
  obtain ⟨e, he, heq⟩ := List.mem_map.mp ho
  exact heq ▸ hw e (List.mem_of_mem_filter he)

/-- Witness for C3 (amended) on a concrete in-range call sequence. -/
theorem C3_witness :
    (∀ e ∈ ([] : List (ℤ × ℕ)), e.2 ≤ 20000) ∧
    (∀ c ∈ [((31 : ℤ), (150 : ℤ)), (33, 250)], c.2 * 10 ≤ ((20000 : ℕ) : ℤ)) ∧
    ((∀ e ∈ SoftPWM.applyCalls [] [((31 : ℤ), (150 : ℤ)), (33, 250)], e.2 ≤ 20000) ∧
     (∀ o ∈ SoftPWM.offsWalked (SoftPWM.applyCalls [] [((31 : ℤ), (150 : ℤ)), (33, 250)]),
        o ≤ 20000)) :=
  ⟨by simp, by decide,
   C3_amended 20000 [] [((31 : ℤ), (150 : ℤ)), (33, 250)] (by simp) (by decide)⟩

/-- C7, counterexample. The claim that the list of deactivation offsets
walked is "the distinct set of positive target widths sorted ascending" is
false: the source sorts the positive widths *with duplicates*
(`sorted(w for _, w in items if w > 0)`, no set), so two pins with equal
width 100 make the loop walk `[100, 100]`, not the distinct `[100]`. -/
theorem C7_counterexample :
    SoftPWM.offsWalked [((1 : ℤ), 100), (2, 100)] = [100, 100] ∧
    SoftPWM.distinctSortedWidths [((1 : ℤ), 100), (2, 100)] = [100] ∧
    ([100, 100] : List ℕ) ≠ [100] := ⟨rfl, rfl, by decide⟩

/-- C7, amended. In one cycle iteration, every pin with positive target
width is set active at the start and (for the dict's duplicate-free pin
keys) a pin with width 0 is never set active; the offsets walked are the
positive target widths sorted ascending *with multiplicity* (duplicate
widths are walked once per pin, the repeats having no further effect since
deactivation is idempotent), and at each walked offset exactly the pins
whose target width equals that offset are set inactive. -/
theorem C7_cycle_amended (items : List (ℤ × ℕ)) :
    (∀ e ∈ items, 0 < e.2 → e.1 ∈ SoftPWM.cycleHighs items) ∧
    (∀ pin ∈ SoftPWM.cycleHighs items, ∃ w, (pin, w) ∈ items ∧ 0 < w) ∧
    ((items.map Prod.fst).Nodup →
      ∀ pin : ℤ, (pin, (0 : ℕ)) ∈ items → pin ∉ SoftPWM.cycleHighs items) ∧
    (SoftPWM.offsWalked items).Perm
      ((items.filter (fun e => 0 < e.2)).map (fun e => e.2)) ∧
    (SoftPWM.offsWalked items).Pairwise (· ≤ ·) ∧
    SoftPWM.cycleEvents items =
      (SoftPWM.offsWalked items).map (fun o => (o, SoftPWM.lowsAt items o)) := by
  have hkey : ∀ pin ∈ SoftPWM.cycleHighs items, ∃ w, (pin, w) ∈ items ∧ 0 < w := by
    intro pin hp
    rw [SoftPWM.cycleHighs] at hp
    obtain ⟨e, he, heq⟩ := List.mem_map.mp hp
    refine ⟨e.2, ?_, ?_⟩
    · rw [← heq]
      exact List.mem_of_mem_filter he
    · have := List.of_mem_filter he
      simpa using this
  refine ⟨?_, hkey, ?_, ?_, sortAsc_pairwise _, ?_⟩
  · intro e he hpos
    rw [SoftPWM.cycleHighs]
    exact List.mem_map.mpr ⟨e, List.mem_filter.mpr ⟨he, by simpa using hpos⟩, rfl⟩
  · intro hnodup pin hmem hp
    obtain ⟨w, hw, hwpos⟩ := hkey pin hp
    have := keys_nodup_eq hnodup hmem hw
    omega
  · exact sortAsc_perm _
  · rw [SoftPWM.cycleEvents]
    induction SoftPWM.offsWalked items with
    | nil => rfl
    | cons o os ih => simp [SoftPWM.walkOffsets, ih]

/-- Witness for C7 (amended) at a concrete width map. -/
theorem C7_witness :
    (([((1 : ℤ), (100 : ℕ)), (2, 50), (3, 0)].map Prod.fst).Nodup) ∧
    (3 : ℤ) ∉ SoftPWM.cycleHighs [((1 : ℤ), (100 : ℕ)), (2, 50), (3, 0)] :=
  ⟨by decide,
   (C7_cycle_amended [((1 : ℤ), (100 : ℕ)), (2, 50), (3, 0)]).2.2.1 (by decide) 3 (by decide)⟩

/-- C8. Frame delivery never blocks the relay (`broadcastPush` is a total
function of the queue — every branch of `_broadcast` returns immediately):
on a full capacity-4 queue the oldest buffered frame is dropped and the new
frame inserted, queue length never exceeds 4, and after broadcasting frames
1–5 to an empty-consumer subscriber the queue holds exactly the 4 most
recent frames in order. -/
theorem C8_relay_backpressure :
    (∀ (q : List ℕ) (p : ℕ), q.length = 4 →
      Relay.broadcastPush q p = q.tail ++ [p]) ∧
    (∀ (q : List ℕ) (p : ℕ), q.length ≤ 4 →
      (Relay.broadcastPush q p).length ≤ 4) ∧
    Relay.broadcastAll [] [1, 2, 3, 4, 5] = [2, 3, 4, 5] := by
  have hfull : ∀ (q : List ℕ) (p : ℕ), q.length = 4 →
      Relay.broadcastPush q p = q.tail ++ [p] := by
    intro q p h
    rcases q with _ | ⟨x, xs⟩
    · simp at h
    · have hx : xs.length = 3 := by simpa using h
      simp [Relay.broadcastPush, Relay.putNowait, Relay.getNowait, hx]
  refine ⟨hfull, ?_, by decide⟩
  intro q p h
  rcases lt_or_eq_of_le h with h4 | h4
  · rw [Relay.broadcastPush, Relay.putNowait, if_neg (by omega)]
    simp
    omega
  · rw [hfull q p h4]
    rcases q with _ | ⟨x, xs⟩
    · simp at h4
    · simp
      simp at h4
      omega

/-- Witness for C8: dropping the oldest frame from a concrete full queue. -/
theorem C8_witness :
    ([10, 11, 12, 13] : List ℕ).length = 4 ∧
    Relay.broadcastPush [10, 11, 12, 13] 14 = [11, 12, 13, 14] :=
  ⟨by decide, (C8_relay_backpressure.1 [10, 11, 12, 13] 14 (by decide)).trans (by decide)⟩

/-- C9. `PCA9685Backend.setup` resolves and validates every requested
pin's channel (loop 1) before writing the centre pulse to any channel
(loop 2): if any pin in the list lacks a servo definition or a configured
channel, setup raises a configuration error and performs no `set_pwm_us`
duty write for any pin. -/
theorem C9_setup_validates_before_writes (smap : List (ℤ × Option ℤ))
    (pins : List ℤ) (centre : ℤ) (pin : ℤ) (hmem : pin ∈ pins)
    (hbad : PCA9685.lookupA smap pin = none ∨
            PCA9685.lookupA smap pin = some none) :
    PCA9685.setup smap pins centre = ([], false) := by
  have hres : PCA9685.resolveChannels smap pins = none := by
    induction pins with
    | nil => simp at hmem
    | cons p ps ih =>
      rcases List.mem_cons.mp hmem with hp | hp
      · subst hp
        rw [PCA9685.resolveChannels]
        rcases hbad with hb | hb <;> rw [hb]
      · rw [PCA9685.resolveChannels]
        cases hl : PCA9685.lookupA smap p with
        | none => rfl
        | some c =>
          cases c with
          | none => rfl
          | some ch => rw [ih hp]; rfl
  rw [PCA9685.setup, hres]

/-- Witness for C9: pin 33 has a servo definition without a channel. -/
theorem C9_witness :
    (33 : ℤ) ∈ [(31 : ℤ), 33] ∧
    PCA9685.setup [((31 : ℤ), some (0 : ℤ)), (33, none)] [31, 33] 150 = ([], false) :=
  ⟨by decide,
   C9_setup_validates_before_writes [((31 : ℤ), some (0 : ℤ)), (33, none)] [31, 33] 150 33
     (by decide) (Or.inr (by decide))⟩

/-- C10. The multipart frame reader returns `none` for any part whose
headers lack a parseable `Content-Length`: whether the header is absent,
empty, or not an integer, `_read_mjpeg_frame` returns `None`, so a stream
omitting `Content-Length` never yields a live frame and the capture loop
takes its reconnect-and-fallback branch (main.py:259-281, keyed on the
`None` result). -/
theorem C10_missing_content_length (s boundary s1 : List ℕ)
    (hdrs : List (List ℕ × List ℕ)) (s2 : List ℕ)
    (hskip : Mjpeg.skipToBoundary s boundary = some s1)
    (hparse : Mjpeg.parseHeaders s1 = some (hdrs, s2))
    (hcl : Mjpeg.getHeader hdrs Mjpeg.contentLengthKey = none ∨
           Mjpeg.getHeader hdrs Mjpeg.contentLengthKey = some [] ∨
           ∃ v, Mjpeg.getHeader hdrs Mjpeg.contentLengthKey = some v ∧
             Mjpeg.pyParseInt v = none) :
    Mjpeg.readMjpegFrame s boundary = none := by
  rw [Mjpeg.readMjpegFrame, hskip]
  simp only []
  rw [hparse]
  rcases hcl with h | h | ⟨v, hv, hparsefail⟩
  · simp only [h]
  · simp [h]
  · simp only [hv]
    by_cases hve : v = []
    · rw [if_pos hve]
    · rw [if_neg hve]
      simp only [hparsefail]

/-- Witness for C10: a part whose headers carry only `Content-Type`. -/
theorem C10_witness :
    Mjpeg.skipToBoundary
        ("--frame\r\nContent-Type: image/jpeg\r\n\r\nAB".data.map Char.toNat)
        ("--frame".data.map Char.toNat) =
      some ("Content-Type: image/jpeg\r\n\r\nAB".data.map Char.toNat) ∧
    Mjpeg.parseHeaders ("Content-Type: image/jpeg\r\n\r\nAB".data.map Char.toNat) =
      some ([("content-type".data.map Char.toNat, "image/jpeg".data.map Char.toNat)],
        "AB".data.map Char.toNat) ∧
    Mjpeg.readMjpegFrame
        ("--frame\r\nContent-Type: image/jpeg\r\n\r\nAB".data.map Char.toNat)
        ("--frame".data.map Char.toNat) = none := by
  refine ⟨by decide, by decide, ?_⟩
  exact C10_missing_content_length
    ("--frame\r\nContent-Type: image/jpeg\r\n\r\nAB".data.map Char.toNat)
    ("--frame".data.map Char.toNat)
    ("Content-Type: image/jpeg\r\n\r\nAB".data.map Char.toNat)
    [("content-type".data.map Char.toNat, "image/jpeg".data.map Char.toNat)]
    ("AB".data.map Char.toNat)
    (by decide) (by decide) (Or.inl (by decide))

/-- Witness for C4 at the shipped default configuration. -/
theorem C4_witness :
    Controller.defaultCfg.min_pulse ≤ Controller.defaultCfg.max_pulse ∧
    Controller.angle_to_pulse Controller.defaultCfg (-5) ≤
      Controller.angle_to_pulse Controller.defaultCfg 7 ∧
    (Controller.defaultCfg.min_pulse ≤ Controller.angle_to_pulse Controller.defaultCfg 3 ∧
      Controller.angle_to_pulse Controller.defaultCfg 3 ≤ Controller.defaultCfg.max_pulse) :=
  ⟨by decide,
   (C4_angle_to_pulse_monotone_bounded Controller.defaultCfg (by decide)).1 (-5) 7 (by decide),
   (C4_angle_to_pulse_monotone_bounded Controller.defaultCfg (by decide)).2 3⟩

end Educo
